import Mathlib

/-!
Verification of the progress-normalization, aggregation and assessment-webhook
logic of a bootcamp learner-tracking backend (`main.py`).

The Python values stored in a learner's `progress` column are modelled by the
inductive type `PyVal` (JSON-like values: `None`, integers, strings, lists,
dicts).  Python dicts are association lists that preserve insertion order and
hold at most one binding per key, which is how every dict in the modelled code
is built.  Fallible Python operations (`int(...)`, `d[k]`) return `Except`.
Python's `int()` on strings is modelled over the string's character list
(optional surrounding whitespace, optional sign, decimal digits); `str.strip`
and `str.lower` are modelled the same way (ASCII case folding).  IEEE floats in
`int(round((completed / total) * 100))` are modelled as exact rationals; the
rounding itself (Python's `round`, which rounds halves to even) is implemented
exactly over integers by `roundHalfEvenRatio`.  Dates are modelled as opaque
integers (`Option ℤ`): no claim depends on date arithmetic.  The database is a
pair of lists of rows; SQLAlchemy's `query(...).filter(...).first()` is
`List.find?`, and committing a mutated row is an id-directed map over the list
(ids are primary keys).
-/

namespace Bootcamp

/-- JSON-like Python runtime values as stored in the `progress` column. -/
inductive PyVal where
  | none
  | int (n : ℤ)
  | str (s : String)
  | list (xs : List PyVal)
  | dict (kvs : List (String × PyVal))

/-- A Python dict with string keys (association list, insertion order). -/
abbrev Entry := List (String × PyVal)

/-- Python `d.get(k, default)`. -/
def pyGet : Entry → String → PyVal → PyVal
  | [], _, d => d
  | (k', v) :: rest, k, d => if k' = k then v else pyGet rest k d

/-- Python `d[k]` (raises `KeyError` when the key is absent). -/
def py_index : Entry → String → Except Unit PyVal
  | [], _ => .error ()
  | (k', v) :: rest, k => if k' = k then .ok v else py_index rest k

/-- Python `d[k] = v` (replaces in place, appends when the key is absent). -/
def py_set : Entry → String → PyVal → Entry
  | [], k, v => [(k, v)]
  | (k', v') :: rest, k, v =>
    if k' = k then (k', v) :: rest else (k', v') :: py_set rest k v

/-- ASCII whitespace, as stripped by Python's `str.strip()`. -/
def is_space (c : Char) : Bool :=
  c == ' ' || c == '\t' || c == '\n' || c == '\r'

/-- Strip leading and trailing whitespace (Python `str.strip()`). -/
def py_strip (s : String) : String :=
  String.mk (((s.data.dropWhile is_space).reverse.dropWhile is_space).reverse)

/-- ASCII lower-casing of one character. -/
def lower_char (c : Char) : Char :=
  if 'A' ≤ c ∧ c ≤ 'Z' then Char.ofNat (c.toNat + 32) else c

/-- Python `str.lower()` (ASCII). -/
def py_lower (s : String) : String :=
  String.mk (s.data.map lower_char)

/-- Accumulate a decimal digit string; fails on any non-digit. -/
def parse_digits_aux (acc : ℕ) : List Char → Option ℕ
  | [] => some acc
  | c :: cs =>
    if c.isDigit then parse_digits_aux (acc * 10 + (c.toNat - 48)) cs
    else Option.none

/-- A nonempty run of decimal digits. -/
def parse_digits : List Char → Option ℕ
  | [] => Option.none
  | l => parse_digits_aux 0 l

/-- Python `int(s)` for a string `s`: optional surrounding whitespace,
optional sign, then at least one decimal digit. -/
def py_int_str (s : String) : Option ℤ :=
  match (s.data.dropWhile is_space).reverse.dropWhile is_space |>.reverse with
  | '+' :: rest => (parse_digits rest).map (fun n => (n : ℤ))
  | '-' :: rest => (parse_digits rest).map (fun n => -(n : ℤ))
  | rest => (parse_digits rest).map (fun n => (n : ℤ))

/-- Python `int(v)`: succeeds on integers and integer-shaped strings,
raises (`.error`) on `None`, lists and dicts — exactly the coercion used
at `int(p.get("week", 0))` and `int(p.get("assessment_pct", 0))`. -/
def py_int : PyVal → Except Unit ℤ
  | .int n => .ok n
  | .str s =>
    match py_int_str s with
    | some n => .ok n
    | Option.none => .error ()
  | _ => .error ()

/-- The dict `{"week": w, "modules_completed": m, "total_modules": t,
"assessment_pct": a}` in the key order used throughout `main.py`. -/
def mkEntry (w m t a : PyVal) : Entry :=
  [("week", w), ("modules_completed", m), ("total_modules", t), ("assessment_pct", a)]

/-- `_week_totals()`: canonical per-week module totals. -/
def week_totals : List ℤ := [5, 5, 5, 5, 5, 5, 4]

/-- One default week record with zero completion and zero assessment. -/
def defaultEntry (week total : ℤ) : Entry :=
  mkEntry (.int week) (.int 0) (.int total) (.int 0)

/-- `_default_progress()`: the canonical 7-entry default progress list. -/
def default_progress : List Entry :=
  (List.range 7).map (fun (i : ℕ) => defaultEntry ((i : ℤ) + 1) (week_totals.getD i 0))

/-- `_default_progress()` as a stored Python value (list of dicts). -/
def default_progress_list : List PyVal :=
  default_progress.map PyVal.dict

/-- `next((p for p in progress if isinstance(p, dict) and int(p.get("week", 0)) == week_num), None)`:
scan for the first dict entry whose `week` coerces to `week_num`; the `int`
coercion raises on malformed week values encountered during the scan. -/
def findWeek : List PyVal → ℤ → Except Unit (Option Entry)
  | [], _ => .ok Option.none
  | PyVal.dict kvs :: rest, w =>
    match py_int (pyGet kvs "week" (.int 0)) with
    | .error e => .error e
    | .ok n => if n = w then .ok (some kvs) else findWeek rest w
  | _ :: rest, w => findWeek rest w

/-- The overlay loop `for k in base.keys(): base[k] = found.get(k, base[k])`. -/
def overlay (found : Entry) (week_num total : ℤ) : Entry :=
  mkEntry (pyGet found "week" (.int week_num))
    (pyGet found "modules_completed" (.int 0))
    (pyGet found "total_modules" (.int total))
    (pyGet found "assessment_pct" (.int 0))

/-- One iteration of `_normalize_progress`'s `for i in range(7)` body. -/
def normalizeOne (progress : List PyVal) (i : ℕ) : Except Unit Entry :=
  match findWeek progress ((i : ℤ) + 1) with
  | .error e => .error e
  | .ok (some kvs) => .ok (overlay kvs ((i : ℤ) + 1) (week_totals.getD i 0))
  | .ok Option.none => .ok (defaultEntry ((i : ℤ) + 1) (week_totals.getD i 0))

/-- The `for i in range(7)` loop of `_normalize_progress`. -/
def normalizeLoop (progress : List PyVal) : List ℕ → Except Unit (List Entry)
  | [] => .ok []
  | i :: is =>
    match normalizeOne progress i with
    | .error e => .error e
    | .ok e =>
      match normalizeLoop progress is with
      | .error e' => .error e'
      | .ok es => .ok (e :: es)

/-- The string-decoding and list-shape fallback at the top of
`_normalize_progress`; `loads` models `json.loads` (`Option.none` = decode
failure). -/
def preprocess (loads : String → Option PyVal) (v : PyVal) : List PyVal :=
  let p := match v with
    | PyVal.str s =>
      match loads s with
      | some d => d
      | Option.none => PyVal.list default_progress_list
    | _ => v
  match p with
  | PyVal.list xs => xs
  | _ => default_progress_list

/-- `_normalize_progress(progress_value)`. -/
def normalize_progress (loads : String → Option PyVal) (v : PyVal) :
    Except Unit (List Entry) :=
  normalizeLoop (preprocess loads v) (List.range 7)

/-- Round the exact rational `n / d` (`d ≠ 0`) to the nearest integer with
halves going to the even neighbour — the behaviour of Python's `round` on the
exact value of `(completed / total) * 100`. -/
def roundHalfEvenRatio (n d : ℤ) : ℤ :=
  let nn := if d < 0 then -n else n
  let dd := if d < 0 then -d else d
  let f := nn / dd
  let r := nn % dd
  if 2 * r < dd then f
  else if dd < 2 * r then f + 1
  else if f % 2 = 0 then f else f + 1

/-- `sum(int(p.get(key, 0)) for p in progress)`. -/
def sumInts : List Entry → String → Except Unit ℤ
  | [], _ => .ok 0
  | p :: rest, key =>
    match py_int (pyGet p key (.int 0)) with
    | .error e => .error e
    | .ok v =>
      match sumInts rest key with
      | .error e => .error e
      | .ok s => .ok (v + s)

/-- The dict returned by `_overall`. -/
structure OverallStats where
  overall_modules_completed : ℤ
  overall_modules_total : ℤ
  overall_progress_pct : ℤ
deriving DecidableEq

/-- `_overall(progress)`: totals, completed and the rounded percentage
(`pct = int(round((completed / total) * 100)) if total else 0`). -/
def overall (progress : List Entry) : Except Unit OverallStats :=
  match sumInts progress "total_modules" with
  | .error e => .error e
  | .ok total =>
    match sumInts progress "modules_completed" with
    | .error e => .error e
    | .ok completed =>
      .ok ⟨completed, total,
        if total ≠ 0 then roundHalfEvenRatio (completed * 100) total else 0⟩

/-- The pydantic `WeekProgress` schema (all fields validated to `int`). -/
structure WeekProgress where
  week : ℤ
  modules_completed : ℤ
  total_modules : ℤ
  assessment_pct : ℤ
deriving DecidableEq

/-- A row of the `learners` table. -/
structure LearnerRow where
  id : ℤ
  name : String
  source_role : String
  target_role : String
  start_week : ℤ
  start_date : Option ℤ
  email : Option String
  progress : PyVal

/-- A row of the `assessments` table (the append-only audit log; the
server-generated timestamp is omitted, no claim concerns it). -/
structure AssessmentRow where
  id : ℤ
  learner_id : ℤ
  week : ℤ
  track : String
  score : ℤ
deriving DecidableEq

/-- The database state: the two tables. -/
structure DB where
  learners : List LearnerRow
  assessments : List AssessmentRow

/-- The `LearnerOut` response schema. -/
structure LearnerOut where
  id : ℤ
  name : String
  source_role : String
  target_role : String
  start_week : ℤ
  start_date : Option ℤ
  progress : List WeekProgress
  overall_modules_completed : ℤ
  overall_modules_total : ℤ
  overall_progress_pct : ℤ

/-- `HTTPException`s raised by the routes, plus unhandled exceptions. -/
inductive ApiError where
  | notFound (detail : String)
  | internal
deriving DecidableEq

/-- `WeekProgress(**p)`: pydantic construction of one response entry.
`week` and `total_modules` are required, the other two default to 0. -/
def entry_to_week (p : Entry) : Except Unit WeekProgress :=
  match py_int (pyGet p "week" PyVal.none) with
  | .error e => .error e
  | .ok w =>
    match py_int (pyGet p "modules_completed" (.int 0)) with
    | .error e => .error e
    | .ok m =>
      match py_int (pyGet p "total_modules" PyVal.none) with
      | .error e => .error e
      | .ok t =>
        match py_int (pyGet p "assessment_pct" (.int 0)) with
        | .error e => .error e
        | .ok a => .ok ⟨w, m, t, a⟩

/-- `[WeekProgress(**p) for p in normalized]`. -/
def weeks_out : List Entry → Except Unit (List WeekProgress)
  | [] => .ok []
  | p :: rest =>
    match entry_to_week p with
    | .error e => .error e
    | .ok wp =>
      match weeks_out rest with
      | .error e => .error e
      | .ok ws => .ok (wp :: ws)

/-- `_to_out(row)`. -/
def to_out (loads : String → Option PyVal) (row : LearnerRow) :
    Except Unit LearnerOut :=
  match normalize_progress loads row.progress with
  | .error e => .error e
  | .ok ns =>
    match overall ns with
    | .error e => .error e
    | .ok ov =>
      match weeks_out ns with
      | .error e => .error e
      | .ok ws =>
        .ok ⟨row.id, row.name, row.source_role, row.target_role,
          row.start_week, row.start_date, ws,
          ov.overall_modules_completed, ov.overall_modules_total,
          ov.overall_progress_pct⟩

/-- `PATCH /learners/{learner_id}` (`update_learner`): overwrite `start_date`
with the payload value (the only field of `LearnerUpdate`, defaulting to
`None` when omitted), leave everything else alone.  The second component is
the database after the request. -/
def update_learner (loads : String → Option PyVal) (db : DB) (learner_id : ℤ)
    (payload : Option ℤ) : Except ApiError LearnerOut × DB :=
  match db.learners.find? (fun l => l.id == learner_id) with
  | Option.none => (.error (.notFound "Learner not found"), db)
  | some row =>
    let row2 : LearnerRow := { row with start_date := payload }
    let db2 : DB :=
      { db with learners := db.learners.map (fun l => if l.id == learner_id then row2 else l) }
    match to_out loads row2 with
    | .error _ => (.error .internal, db2)
    | .ok out => (.ok out, db2)

/-- The dict comprehension
`{int(p["week"]): int(p.get("assessment_pct", 0)) for p in existing}`,
kept as the ordered key/value pair list. -/
def assessment_by_week : List Entry → Except Unit (List (ℤ × ℤ))
  | [] => .ok []
  | p :: rest =>
    match py_index p "week" with
    | .error e => .error e
    | .ok wv =>
      match py_int wv with
      | .error e => .error e
      | .ok w =>
        match py_int (pyGet p "assessment_pct" (.int 0)) with
        | .error e => .error e
        | .ok a =>
          match assessment_by_week rest with
          | .error e => .error e
          | .ok ps => .ok ((w, a) :: ps)

/-- Python `dict(pairs).get(k, d)`: with duplicate keys the later pair wins. -/
def dict_get (pairs : List (ℤ × ℤ)) (k d : ℤ) : ℤ :=
  match pairs.reverse.find? (fun p => p.1 == k) with
  | Option.none => d
  | some p => p.2

/-- `item.model_dump()` for a validated `WeekProgress` payload item. -/
def item_to_dict (it : WeekProgress) : Entry :=
  mkEntry (.int it.week) (.int it.modules_completed) (.int it.total_modules)
    (.int it.assessment_pct)

/-- The sanitizing loop of `update_progress`: force each item's
`assessment_pct` to the server-side value for that item's week (0 when the
server has no such week). -/
def sanitize_items (byweek : List (ℤ × ℤ)) (items : List WeekProgress) :
    List WeekProgress :=
  items.map (fun it => { it with assessment_pct := dict_get byweek it.week 0 })

/-- `PUT /learners/{learner_id}/progress` (`update_progress`). -/
def update_progress (loads : String → Option PyVal) (db : DB) (learner_id : ℤ)
    (items : List WeekProgress) : Except ApiError LearnerOut × DB :=
  match db.learners.find? (fun l => l.id == learner_id) with
  | Option.none => (.error (.notFound "Learner not found"), db)
  | some row =>
    match normalize_progress loads row.progress with
    | .error _ => (.error .internal, db)
    | .ok existing =>
      match assessment_by_week existing with
      | .error _ => (.error .internal, db)
      | .ok byweek =>
        let sanitized := sanitize_items byweek items
        let row2 : LearnerRow :=
          { row with progress := PyVal.list (sanitized.map (fun it => PyVal.dict (item_to_dict it))) }
        let db2 : DB :=
          { db with learners := db.learners.map (fun l => if l.id == learner_id then row2 else l) }
        match to_out loads row2 with
        | .error _ => (.error .internal, db2)
        | .ok out => (.ok out, db2)

/-- The webhook's week-update loop: on the first entry whose `week` coerces to
the submitted week, set `assessment_pct` to 100 when `passed` or the current
value is already ≥ 100, else to 0, and stop (`break`). -/
def updateWeekPct : List Entry → ℤ → Bool → Except Unit (List Entry)
  | [], _, _ => .ok []
  | p :: rest, week, passed =>
    match py_int (pyGet p "week" (.int 0)) with
    | .error e => .error e
    | .ok w =>
      if w = week then
        match py_int (pyGet p "assessment_pct" (.int 0)) with
        | .error e => .error e
        | .ok cur =>
          .ok (py_set p "assessment_pct"
            (.int (if passed || decide (100 ≤ cur) then 100 else 0)) :: rest)
      else
        match updateWeekPct rest week passed with
        | .error e => .error e
        | .ok rest2 => .ok (p :: rest2)

/-- Default of the `PASSING_SCORE` environment variable. -/
def PASSING_SCORE : ℤ := 7

/-- The validated `AssessmentWebhook` payload (`1 ≤ week ≤ 7`, `score ≥ 0`
are enforced by pydantic before the route body runs). -/
structure AssessmentWebhookIn where
  email : String
  week : ℤ
  track : String
  score : ℤ

/-- The webhook's JSON response. -/
structure WebhookResp where
  status : String
  assessment_id : ℤ
  passed : Bool
deriving DecidableEq

/-- The autoincremented id `db.refresh(assessment)` reports. -/
def next_assessment_id (db : DB) : ℤ :=
  (db.assessments.map (fun a => a.id)).foldr max 0 + 1

/-- `POST /assessment-webhook` (`assessment_webhook`): look up the learner by
normalized email, append the audit row, then apply the pass-locking rule to
the normalized progress.  A normalization failure happens after the audit row
was committed, so that row survives (`.error .internal` with `db1`). -/
def assessment_webhook (loads : String → Option PyVal) (passing_score : ℤ)
    (db : DB) (data : AssessmentWebhookIn) : Except ApiError WebhookResp × DB :=
  let email := py_lower (py_strip data.email)
  match db.learners.find? (fun l => l.email == some email) with
  | Option.none => (.error (.notFound "Learner not found for email"), db)
  | some learner =>
    let aid := next_assessment_id db
    let db1 : DB :=
      { db with assessments := db.assessments ++
          [{ id := aid, learner_id := learner.id, week := data.week,
             track := data.track, score := data.score }] }
    let passed : Bool := decide (passing_score ≤ data.score)
    match normalize_progress loads learner.progress with
    | .error _ => (.error .internal, db1)
    | .ok progress =>
      match updateWeekPct progress data.week passed with
      | .error _ => (.error .internal, db1)
      | .ok progress2 =>
        let db2 : DB :=
          { db1 with learners := db1.learners.map (fun l =>
              if l.id == learner.id
              then { l with progress := PyVal.list (progress2.map PyVal.dict) }
              else l) }
        (.ok { status := "saved", assessment_id := aid, passed := passed }, db2)

/-- Modelled from the spec wording of claim C5: "the server's pre-existing
assessment_pct for that week (0 if the week had none)" — read off the
normalized existing progress; weeks outside 1–7 have none. -/
def server_pct_spec (ns : List Entry) (wk : ℤ) : ℤ :=
  if 1 ≤ wk ∧ wk ≤ 7 then
    (py_int (pyGet (ns.getD (wk - 1).toNat []) "assessment_pct" (.int 0))).toOption.getD 0
  else 0

/-- A `json.loads` model that fails on every string. -/
def sample_loads : String → Option PyVal := fun _ => Option.none

/-- A learner whose stored progress is wrong-typed (normalizes to defaults). -/
def sample_learner : LearnerRow :=
  { id := 1, name := "Ada", source_role := "QA", target_role := "AI engineer",
    start_week := 1, start_date := some 20250901, email := some "a@b.com",
    progress := PyVal.int 0 }

/-- A one-learner database with an empty audit log. -/
def sample_db : DB := { learners := [sample_learner], assessments := [] }

/-! ### Basic facts about the dict operations -/

@[simp] theorem pyGet_mkEntry_week (w m t a d : PyVal) :
    pyGet (mkEntry w m t a) "week" d = w := rfl

@[simp] theorem pyGet_mkEntry_mc (w m t a d : PyVal) :
    pyGet (mkEntry w m t a) "modules_completed" d = m := rfl

@[simp] theorem pyGet_mkEntry_tm (w m t a d : PyVal) :
    pyGet (mkEntry w m t a) "total_modules" d = t := rfl

@[simp] theorem pyGet_mkEntry_pct (w m t a d : PyVal) :
    pyGet (mkEntry w m t a) "assessment_pct" d = a := rfl

@[simp] theorem py_index_mkEntry_week (w m t a : PyVal) :
    py_index (mkEntry w m t a) "week" = .ok w := rfl

@[simp] theorem py_set_mkEntry_pct (w m t a v : PyVal) :
    py_set (mkEntry w m t a) "assessment_pct" v = mkEntry w m t v := rfl

@[simp] theorem overlay_mkEntry (w m t a : PyVal) (wn tt : ℤ) :
    overlay (mkEntry w m t a) wn tt = mkEntry w m t a := rfl

@[simp] theorem py_int_int (n : ℤ) : py_int (.int n) = .ok n := rfl

/-- A key is either absent (every default is returned) or present with one
fixed value, independent of the supplied default. -/
theorem pyGet_default_or (kvs : Entry) (k : String) :
    (∀ d, pyGet kvs k d = d) ∨ (∃ v, ∀ d, pyGet kvs k d = v) := by
  induction kvs with
  | nil => exact Or.inl (fun d => rfl)
  | cons kv rest ih =>
    obtain ⟨k', v⟩ := kv
    by_cases h : k' = k
    · exact Or.inr ⟨v, fun d => by simp [pyGet, h]⟩
    · rcases ih with h1 | ⟨v', h2⟩
      · exact Or.inl (fun d => by simp [pyGet, h, h1 d])
      · exact Or.inr ⟨v', fun d => by simp [pyGet, h, h2 d]⟩

/-! ### Facts about the week-search of `_normalize_progress` -/

/-- A successful `findWeek` returns an entry whose `week` coerces to the
searched week. -/
theorem findWeek_ok_some : ∀ {xs : List PyVal} {w : ℤ} {kvs : Entry},
    findWeek xs w = .ok (some kvs) → py_int (pyGet kvs "week" (.int 0)) = .ok w := by
  intro xs
  induction xs with
  | nil => intro w kvs h; simp [findWeek] at h
  | cons p rest ih =>
    intro w kvs h
    cases p with
    | none => exact ih (by simpa [findWeek] using h)
    | int n => exact ih (by simpa [findWeek] using h)
    | str s => exact ih (by simpa [findWeek] using h)
    | list xs' => exact ih (by simpa [findWeek] using h)
    | dict kvs' =>
      simp only [findWeek] at h
      cases hw : py_int (pyGet kvs' "week" (.int 0)) with
      | error e => rw [hw] at h; simp at h
      | ok n =>
        rw [hw] at h
        by_cases hn : n = w
        · subst hn
          simp at h
          subst h
          exact hw
        · simp [hn] at h
          exact ih h

/-- When every dict element's `week` value is `int`-coercible, `findWeek`
cannot raise. -/
theorem findWeek_total {xs : List PyVal} (w : ℤ)
    (H : ∀ p ∈ xs, ∀ kvs, p = PyVal.dict kvs →
      ∃ n, py_int (pyGet kvs "week" (.int 0)) = .ok n) :
    ∃ r, findWeek xs w = .ok r := by
  induction xs with
  | nil => exact ⟨Option.none, rfl⟩
  | cons p rest ih =>
    have Hrest : ∀ q ∈ rest, ∀ kvs, q = PyVal.dict kvs →
        ∃ n, py_int (pyGet kvs "week" (.int 0)) = .ok n :=
      fun q hq => H q (List.mem_cons_of_mem _ hq)
    cases p with
    | none => obtain ⟨r, hr⟩ := ih Hrest; exact ⟨r, by simpa [findWeek] using hr⟩
    | int n => obtain ⟨r, hr⟩ := ih Hrest; exact ⟨r, by simpa [findWeek] using hr⟩
    | str s => obtain ⟨r, hr⟩ := ih Hrest; exact ⟨r, by simpa [findWeek] using hr⟩
    | list xs' => obtain ⟨r, hr⟩ := ih Hrest; exact ⟨r, by simpa [findWeek] using hr⟩
    | dict kvs' =>
      obtain ⟨n, hn⟩ := H (PyVal.dict kvs') (List.mem_cons_self _ _) kvs' rfl
      by_cases hw : n = w
      · exact ⟨some kvs', by simp [findWeek, hn, hw]⟩
      · obtain ⟨r, hr⟩ := ih Hrest
        exact ⟨r, by simp [findWeek, hn, hw, hr]⟩

/-- Scanning a list of dicts whose `week`s coerce to consecutive integers
starting at `o` finds exactly the `j`-th dict when searching for `o + j`. -/
theorem findWeek_hit : ∀ (es : List Entry) (o : ℤ) (j : ℕ),
    (∀ i : ℕ, i < es.length → py_int (pyGet (es.getD i []) "week" (.int 0)) = .ok (o + i)) →
    j < es.length →
    findWeek (es.map PyVal.dict) (o + j) = .ok (some (es.getD j [])) := by
  intro es
  induction es with
  | nil => intro o j _ hj; simp at hj
  | cons e rest ih =>
    intro o j H hj
    have h0 : py_int (pyGet e "week" (.int 0)) = .ok o := by
      simpa using H 0 (by simp)
    cases j with
    | zero =>
      simp [findWeek, h0]
    | succ j' =>
      have hne : ¬ (o = o + ((j' + 1 : ℕ) : ℤ)) := by push_cast; omega
      have hcast : o + ((j' + 1 : ℕ) : ℤ) = (o + 1) + (j' : ℤ) := by push_cast; ring
      have Hrest : ∀ i : ℕ, i < rest.length →
          py_int (pyGet (rest.getD i []) "week" (.int 0)) = .ok ((o + 1) + i) := by
        intro i hi
        have heq : o + ((i + 1 : ℕ) : ℤ) = (o + 1) + (i : ℤ) := by push_cast; ring
        have := H (i + 1) (by simpa using Nat.succ_lt_succ hi)
        rw [heq] at this
        simpa using this
      have hrec := ih (o + 1) j' Hrest (by simpa using Nat.lt_of_succ_lt_succ hj)
      simp only [List.map_cons, findWeek, h0, if_neg hne]
      rw [hcast]
      simpa using hrec

/-! ### Structure of the normalizer's output -/

/-- Every record produced by one normalizer iteration is a four-key dict in
canonical key order whose `week` value coerces to `i + 1`. -/
theorem normalizeOne_shape {p : List PyVal} {i : ℕ} {e : Entry}
    (h : normalizeOne p i = .ok e) :
    ∃ w m t a, e = mkEntry w m t a ∧ py_int w = .ok ((i : ℤ) + 1) := by
  unfold normalizeOne at h
  cases hf : findWeek p ((i : ℤ) + 1) with
  | error e' => rw [hf] at h; simp at h
  | ok found =>
    rw [hf] at h
    cases found with
    | none =>
      have he : e = defaultEntry ((i : ℤ) + 1) (week_totals.getD i 0) := by
        injection h with h'; exact h'.symm
      exact ⟨.int ((i : ℤ) + 1), .int 0, .int (week_totals.getD i 0), .int 0,
        by rw [he]; rfl, rfl⟩
    | some kvs =>
      have he : e = overlay kvs ((i : ℤ) + 1) (week_totals.getD i 0) := by
        injection h with h'; exact h'.symm
      have hw := findWeek_ok_some hf
      rcases pyGet_default_or kvs "week" with hd | ⟨v, hv⟩
      · rw [hd] at hw
        simp only [py_int_int, Except.ok.injEq] at hw
        omega
      · refine ⟨v, pyGet kvs "modules_completed" (.int 0),
          pyGet kvs "total_modules" (.int (week_totals.getD i 0)),
          pyGet kvs "assessment_pct" (.int 0), ?_, ?_⟩
        · rw [he]; unfold overlay; rw [hv]
        · rw [← hv (.int 0)]; exact hw

/-- Deconstruct one iteration of the normalization loop. -/
theorem normalizeLoop_cons {p : List PyVal} {i : ℕ} {is : List ℕ} {ns : List Entry}
    (h : normalizeLoop p (i :: is) = .ok ns) :
    ∃ e ns', normalizeOne p i = .ok e ∧ normalizeLoop p is = .ok ns' ∧ ns = e :: ns' := by
  simp only [normalizeLoop] at h
  cases he : normalizeOne p i with
  | error u => rw [he] at h; simp at h
  | ok e =>
    rw [he] at h
    cases hs : normalizeLoop p is with
    | error u => rw [hs] at h; simp at h
    | ok ns' =>
      rw [hs] at h
      injection h with h'
      exact ⟨e, ns', rfl, rfl, h'.symm⟩

/-- When every dict element's `week` value is `int`-coercible the whole loop
succeeds, with one record per index. -/
theorem normalizeLoop_total {p : List PyVal}
    (H : ∀ q ∈ p, ∀ kvs, q = PyVal.dict kvs →
      ∃ n, py_int (pyGet kvs "week" (.int 0)) = .ok n) :
    ∀ is : List ℕ, ∃ ns, normalizeLoop p is = .ok ns ∧ ns.length = is.length := by
  intro is
  induction is with
  | nil => exact ⟨[], rfl, rfl⟩
  | cons i rest ih =>
    obtain ⟨ns', hns', hlen⟩ := ih
    obtain ⟨r, hr⟩ := findWeek_total ((i : ℤ) + 1) H
    cases r with
    | none =>
      exact ⟨defaultEntry ((i : ℤ) + 1) (week_totals.getD i 0) :: ns',
        by simp [normalizeLoop, normalizeOne, hr, hns'], by simp [hlen]⟩
    | some kvs =>
      exact ⟨overlay kvs ((i : ℤ) + 1) (week_totals.getD i 0) :: ns',
        by simp [normalizeLoop, normalizeOne, hr, hns'], by simp [hlen]⟩

/-- The normalizer's output is always 7 records; the `j`-th is a four-key dict
whose `week` value coerces to `j + 1`. -/
theorem normalize_progress_shape {loads : String → Option PyVal} {v : PyVal}
    {ns : List Entry} (h : normalize_progress loads v = .ok ns) :
    ns.length = 7 ∧ ∀ j : ℕ, j < 7 →
      ∃ w m t a, ns.getD j [] = mkEntry w m t a ∧ py_int w = .ok ((j : ℤ) + 1) := by
  unfold normalize_progress at h
  rw [show List.range 7 = [0, 1, 2, 3, 4, 5, 6] from rfl] at h
  obtain ⟨e0, r1, he0, h1, rfl⟩ := normalizeLoop_cons h
  obtain ⟨e1, r2, he1, h2, rfl⟩ := normalizeLoop_cons h1
  obtain ⟨e2, r3, he2, h3, rfl⟩ := normalizeLoop_cons h2
  obtain ⟨e3, r4, he3, h4, rfl⟩ := normalizeLoop_cons h3
  obtain ⟨e4, r5, he4, h5, rfl⟩ := normalizeLoop_cons h4
  obtain ⟨e5, r6, he5, h6, rfl⟩ := normalizeLoop_cons h5
  obtain ⟨e6, r7, he6, h7, rfl⟩ := normalizeLoop_cons h6
  simp only [normalizeLoop, Except.ok.injEq] at h7
  subst h7
  refine ⟨rfl, ?_⟩
  intro j hj
  interval_cases j
  · simpa using normalizeOne_shape he0
  · simpa using normalizeOne_shape he1
  · simpa using normalizeOne_shape he2
  · simpa using normalizeOne_shape he3
  · simpa using normalizeOne_shape he4
  · simpa using normalizeOne_shape he5
  · simpa using normalizeOne_shape he6

/-! ### Generic list helpers -/

theorem getD_set_self {α : Type} : ∀ (l : List α) (i : ℕ) (a d : α),
    i < l.length → (l.set i a).getD i d = a := by
  intro l
  induction l with
  | nil => intro i a d h; simp at h
  | cons x xs ih =>
    intro i a d h
    cases i with
    | zero => rfl
    | succ i' => simpa using ih i' a d (by simpa using Nat.lt_of_succ_lt_succ h)

theorem getD_set_ne {α : Type} : ∀ (l : List α) (i k : ℕ) (a d : α),
    i ≠ k → (l.set i a).getD k d = l.getD k d := by
  intro l
  induction l with
  | nil => intro i k a d _; simp
  | cons x xs ih =>
    intro i k a d h
    cases i with
    | zero =>
      cases k with
      | zero => exact absurd rfl h
      | succ k' => rfl
    | succ i' =>
      cases k with
      | zero => rfl
      | succ k' => simpa using ih i' k' a d (fun hc => h (by rw [hc]))

theorem length_seven_cases {α : Type} :
    ∀ (l : List α), l.length = 7 → ∃ a0 a1 a2 a3 a4 a5 a6, l = [a0, a1, a2, a3, a4, a5, a6]
  | x0 :: x1 :: x2 :: x3 :: x4 :: x5 :: x6 :: tail, h => by
    have htail : tail = [] := by
      have hz : tail.length = 0 := by simpa using h
      exact List.eq_nil_of_length_eq_zero hz
    exact ⟨x0, x1, x2, x3, x4, x5, x6, by rw [htail]⟩
  | [], h => by simp at h
  | [_], h => by simp at h
  | [_, _], h => by simp at h
  | [_, _, _], h => by simp at h
  | [_, _, _, _], h => by simp at h
  | [_, _, _, _, _], h => by simp at h
  | [_, _, _, _, _, _], h => by simp at h

/-- From the normalizer shape: the `j`-th record's `week` coerces to `1 + j`. -/
theorem shape_week_coe {ns : List Entry} (hlen : ns.length = 7)
    (hshape : ∀ j : ℕ, j < 7 →
      ∃ w m t a, ns.getD j [] = mkEntry w m t a ∧ py_int w = .ok ((j : ℤ) + 1)) :
    ∀ i : ℕ, i < ns.length →
      py_int (pyGet (ns.getD i []) "week" (.int 0)) = .ok ((1 : ℤ) + i) := by
  intro i hi
  obtain ⟨w, m, t, a, he, hw⟩ := hshape i (by omega)
  rw [he, pyGet_mkEntry_week, hw]
  congr 1
  ring

/-! ### The webhook's update loop -/

/-- On a list whose `week`s coerce to consecutive integers starting at `o`,
the webhook loop succeeds and rewrites exactly the `j`-th entry's
`assessment_pct` according to the pass-lock rule. -/
theorem updateWeekPct_hit : ∀ (ns : List Entry) (o : ℤ) (j : ℕ),
    (∀ i : ℕ, i < ns.length →
      py_int (pyGet (ns.getD i []) "week" (.int 0)) = .ok (o + i)) →
    j < ns.length →
    ∀ cur : ℤ, py_int (pyGet (ns.getD j []) "assessment_pct" (.int 0)) = .ok cur →
    ∀ passed : Bool,
    updateWeekPct ns (o + j) passed =
      .ok (ns.set j (py_set (ns.getD j []) "assessment_pct"
        (.int (if passed || decide (100 ≤ cur) then 100 else 0)))) := by
  intro ns
  induction ns with
  | nil => intro o j _ hj; simp at hj
  | cons e rest ih =>
    intro o j H hj cur hcur passed
    have h0 : py_int (pyGet e "week" (.int 0)) = .ok o := by
      simpa using H 0 (by simp)
    cases j with
    | zero =>
      have hcur0 : py_int (pyGet e "assessment_pct" (.int 0)) = .ok cur := by
        simpa using hcur
      simp [updateWeekPct, h0, hcur0]
    | succ j' =>
      have hne : ¬ ((o : ℤ) = o + ((j' + 1 : ℕ) : ℤ)) := by push_cast; omega
      have hcast : o + ((j' + 1 : ℕ) : ℤ) = (o + 1) + (j' : ℤ) := by push_cast; ring
      have Hrest : ∀ i : ℕ, i < rest.length →
          py_int (pyGet (rest.getD i []) "week" (.int 0)) = .ok ((o + 1) + i) := by
        intro i hi
        have heq : o + ((i + 1 : ℕ) : ℤ) = (o + 1) + (i : ℤ) := by push_cast; ring
        have := H (i + 1) (by simpa using Nat.succ_lt_succ hi)
        rw [heq] at this
        simpa using this
      have hcur' : py_int (pyGet (rest.getD j' []) "assessment_pct" (.int 0)) = .ok cur := by
        simpa using hcur
      have hrec := ih (o + 1) j' Hrest (by simpa using Nat.lt_of_succ_lt_succ hj) cur hcur' passed
      rw [← hcast] at hrec
      simp only [updateWeekPct, h0]
      rw [if_neg hne, hrec]
      rfl

/-! ### The dict comprehension of `update_progress` -/

/-- Running the week→pct comprehension over a normalizer-shaped list whose
`assessment_pct`s coerce to `g j` yields exactly the pairs `(o + j, g j)`. -/
theorem assessment_by_week_ok : ∀ (ns : List Entry) (o : ℤ) (g : ℕ → ℤ),
    (∀ j : ℕ, j < ns.length → ∃ w m t a, ns.getD j [] = mkEntry w m t a ∧
      py_int w = .ok (o + j) ∧ py_int a = .ok (g j)) →
    assessment_by_week ns =
      .ok ((List.range ns.length).map (fun (j : ℕ) => (o + (j : ℤ), g j))) := by
  intro ns
  induction ns with
  | nil => intro o g _; rfl
  | cons e rest ih =>
    intro o g H
    obtain ⟨w, m, t, a, he, hw, ha⟩ := H 0 (by simp)
    rw [List.getD_cons_zero] at he
    simp only [Nat.cast_zero, add_zero] at hw
    have Hrest : ∀ j : ℕ, j < rest.length → ∃ w' m' t' a',
        rest.getD j [] = mkEntry w' m' t' a' ∧
        py_int w' = .ok ((o + 1) + j) ∧ py_int a' = .ok (g (j + 1)) := by
      intro j hjr
      obtain ⟨w', m', t', a', he', hw', ha'⟩ := H (j + 1) (by simpa using Nat.succ_lt_succ hjr)
      have heq : o + ((j + 1 : ℕ) : ℤ) = (o + 1) + (j : ℤ) := by push_cast; ring
      rw [heq] at hw'
      exact ⟨w', m', t', a', by simpa using he', hw', ha'⟩
    have hrec := ih (o + 1) (fun j => g (j + 1)) Hrest
    subst he
    have hmap : (List.range rest.length).map (fun (j : ℕ) => ((o + 1) + (j : ℤ), g (j + 1)))
        = (List.range rest.length).map ((fun (j : ℕ) => (o + (j : ℤ), g j)) ∘ Nat.succ) := by
      apply List.map_congr_left
      intro j _
      simp only [Function.comp]
      refine Prod.ext ?_ rfl
      push_cast
      ring
    simp only [assessment_by_week, py_index_mkEntry_week, hw, pyGet_mkEntry_pct, ha, hrec]
    rw [List.length_cons, List.range_succ_eq_map, List.map_cons, hmap, List.map_map]
    simp

/-- Looking up a week in the seven comprehension pairs. -/
theorem dict_get_pairs (g : ℕ → ℤ) (wk : ℤ) :
    dict_get [(1, g 0), (2, g 1), (3, g 2), (4, g 3), (5, g 4), (6, g 5), (7, g 6)] wk 0
      = if 1 ≤ wk ∧ wk ≤ 7 then g (wk - 1).toNat else 0 := by
  rcases eq_or_ne wk 1 with rfl | h1
  · rfl
  rcases eq_or_ne wk 2 with rfl | h2
  · rfl
  rcases eq_or_ne wk 3 with rfl | h3
  · rfl
  rcases eq_or_ne wk 4 with rfl | h4
  · rfl
  rcases eq_or_ne wk 5 with rfl | h5
  · rfl
  rcases eq_or_ne wk 6 with rfl | h6
  · rfl
  rcases eq_or_ne wk 7 with rfl | h7
  · rfl
  have hrange : ¬ (1 ≤ wk ∧ wk ≤ 7) := by omega
  rw [if_neg hrange]
  have hf : List.find? (fun p => p.1 == wk)
      [((7 : ℤ), g 6), (6, g 5), (5, g 4), (4, g 3), (3, g 2), (2, g 1), (1, g 0)]
      = Option.none := by
    rw [List.find?_eq_none]
    intro x hx
    fin_cases hx <;> simp [beq_iff_eq] <;> omega
  unfold dict_get
  rw [show ([((1 : ℤ), g 0), (2, g 1), (3, g 2), (4, g 3), (5, g 4), (6, g 5), (7, g 6)]).reverse
      = [((7 : ℤ), g 6), (6, g 5), (5, g 4), (4, g 3), (3, g 2), (2, g 1), (1, g 0)] from rfl, hf]

/-- The spec-side server percentage agrees with the same if-expression. -/
theorem server_pct_spec_eq {ns : List Entry} {g : ℕ → ℤ}
    (hg : ∀ j : ℕ, j < 7 →
      py_int (pyGet (ns.getD j []) "assessment_pct" (.int 0)) = .ok (g j))
    (wk : ℤ) :
    server_pct_spec ns wk = if 1 ≤ wk ∧ wk ≤ 7 then g (wk - 1).toNat else 0 := by
  unfold server_pct_spec
  by_cases h : 1 ≤ wk ∧ wk ≤ 7
  · rw [if_pos h, if_pos h]
    have hj : (wk - 1).toNat < 7 := by omega
    have := hg _ hj
    rw [this]
    rfl
  · rw [if_neg h, if_neg h]

/-! ### Sums and bounds for the aggregator -/

theorem sumInts_bounds : ∀ (ns : List Entry) (ms ts : ℕ → ℤ),
    (∀ j : ℕ, j < ns.length →
      py_int (pyGet (ns.getD j []) "modules_completed" (.int 0)) = .ok (ms j) ∧
      py_int (pyGet (ns.getD j []) "total_modules" (.int 0)) = .ok (ts j) ∧
      0 ≤ ms j ∧ ms j ≤ ts j) →
    ∃ c t, sumInts ns "modules_completed" = .ok c ∧ sumInts ns "total_modules" = .ok t ∧
      0 ≤ c ∧ c ≤ t := by
  intro ns
  induction ns with
  | nil => intro ms ts _; exact ⟨0, 0, rfl, rfl, le_refl 0, le_refl 0⟩
  | cons e rest ih =>
    intro ms ts H
    obtain ⟨hm, ht, hm0, hmt⟩ := H 0 (by simp)
    rw [List.getD_cons_zero] at hm ht
    have Hrest : ∀ j : ℕ, j < rest.length →
        py_int (pyGet (rest.getD j []) "modules_completed" (.int 0)) = .ok (ms (j + 1)) ∧
        py_int (pyGet (rest.getD j []) "total_modules" (.int 0)) = .ok (ts (j + 1)) ∧
        0 ≤ ms (j + 1) ∧ ms (j + 1) ≤ ts (j + 1) := by
      intro j hj
      have := H (j + 1) (by simpa using Nat.succ_lt_succ hj)
      simpa using this
    obtain ⟨c, t, hc, htt, hc0, hct⟩ := ih (fun j => ms (j + 1)) (fun j => ts (j + 1)) Hrest
    exact ⟨ms 0 + c, ts 0 + t, by simp [sumInts, hm, hc], by simp [sumInts, ht, htt],
      by omega, by omega⟩

/-! ### The rounding of `_overall` -/

theorem roundHalfEvenRatio_nonneg {n d : ℤ} (hn : 0 ≤ n) (hd : 0 < d) :
    0 ≤ roundHalfEvenRatio n d := by
  have hd' : ¬ (d < 0) := by omega
  have hf : 0 ≤ n / d := Int.ediv_nonneg hn (le_of_lt hd)
  simp only [roundHalfEvenRatio, if_neg hd']
  split_ifs <;> omega

theorem roundHalfEvenRatio_le {n d m : ℤ} (hd : 0 < d) (h : n ≤ m * d) :
    roundHalfEvenRatio n d ≤ m := by
  have hd' : ¬ (d < 0) := by omega
  have hfr : d * (n / d) + n % d = n := Int.ediv_add_emod n d
  have hr0 : 0 ≤ n % d := Int.emod_nonneg n (by omega)
  have hrd : n % d < d := Int.emod_lt_of_pos n hd
  simp only [roundHalfEvenRatio, if_neg hd']
  have hfm : n / d ≤ m := by
    have h1 : (n / d) * d ≤ m * d := by nlinarith
    exact le_of_mul_le_mul_right h1 hd
  split_ifs with h1 h2 h3
  · exact hfm
  · have h2' : (2 * (n / d) + 1) * d < (2 * m) * d := by nlinarith
    have := lt_of_mul_lt_mul_right h2' (by omega)
    omega
  · exact hfm
  · have h4 : 2 * (n % d) = d := by omega
    have h5 : (2 * (n / d) + 1) * d ≤ (2 * m) * d := by nlinarith
    have h6 := le_of_mul_le_mul_right h5 hd
    omega

/-- Characterization of `roundHalfEvenRatio` for a positive denominator:
the result is within one half of the exact ratio, and at an exact half it is
the even neighbour. -/
theorem roundHalfEvenRatio_char_pos (n d : ℤ) (hd : 0 < d) :
    |(n : ℚ) / d - (roundHalfEvenRatio n d : ℚ)| ≤ 1 / 2 ∧
      (|(n : ℚ) / d - (roundHalfEvenRatio n d : ℚ)| = 1 / 2 →
        roundHalfEvenRatio n d % 2 = 0) := by
  have hd' : ¬ (d < 0) := by omega
  obtain ⟨f, r, hf, hr⟩ : ∃ f r, n / d = f ∧ n % d = r := ⟨_, _, rfl, rfl⟩
  have hfr : d * f + r = n := by rw [← hf, ← hr]; exact Int.ediv_add_emod n d
  have hr0 : 0 ≤ r := by rw [← hr]; exact Int.emod_nonneg n (by omega)
  have hrd : r < d := by rw [← hr]; exact Int.emod_lt_of_pos n hd
  have hdq : (0 : ℚ) < (d : ℚ) := by exact_mod_cast hd
  have hnq : (n : ℚ) = (d : ℚ) * (f : ℚ) + (r : ℚ) := by exact_mod_cast hfr.symm
  have hkey : (n : ℚ) / d - (f : ℚ) = (r : ℚ) / d := by
    field_simp
    linarith [hnq]
  have hrq0 : (0 : ℚ) ≤ (r : ℚ) / d :=
    div_nonneg (by exact_mod_cast hr0) (le_of_lt hdq)
  simp only [roundHalfEvenRatio, if_neg hd', hf, hr]
  split_ifs with h1 h2 h3
  · -- remainder strictly below one half
    have hlt : (r : ℚ) / d < 1 / 2 := by
      rw [div_lt_iff₀ hdq]
      have : (2 : ℚ) * (r : ℚ) < (d : ℚ) := by exact_mod_cast h1
      linarith
    constructor
    · rw [hkey, abs_of_nonneg hrq0]; linarith
    · intro habs
      rw [hkey, abs_of_nonneg hrq0] at habs
      linarith
  · -- remainder strictly above one half
    have hgt : 1 / 2 < (r : ℚ) / d := by
      rw [lt_div_iff₀ hdq]
      have : (d : ℚ) < (2 : ℚ) * (r : ℚ) := by exact_mod_cast h2
      linarith
    have hle1 : (r : ℚ) / d < 1 := by
      rw [div_lt_one hdq]
      exact_mod_cast hrd
    have hval : (n : ℚ) / d - ((f + 1 : ℤ) : ℚ) = (r : ℚ) / d - 1 := by
      push_cast
      linarith [hkey]
    constructor
    · rw [hval, abs_of_nonpos (by linarith)]; linarith
    · intro habs
      rw [hval, abs_of_nonpos (by linarith)] at habs
      linarith
  · -- exact tie, even floor
    have htie : 2 * r = d := by omega
    have heq2 : (r : ℚ) / d = 1 / 2 := by
      rw [div_eq_iff (ne_of_gt hdq)]
      have : ((2 : ℚ)) * (r : ℚ) = (d : ℚ) := by exact_mod_cast htie
      linarith
    constructor
    · rw [hkey, abs_of_nonneg hrq0, heq2]
    · intro _; exact h3
  · -- exact tie, odd floor
    have htie : 2 * r = d := by omega
    have heq2 : (r : ℚ) / d = 1 / 2 := by
      rw [div_eq_iff (ne_of_gt hdq)]
      have : ((2 : ℚ)) * (r : ℚ) = (d : ℚ) := by exact_mod_cast htie
      linarith
    have hval : (n : ℚ) / d - ((f + 1 : ℤ) : ℚ) = (r : ℚ) / d - 1 := by
      push_cast
      linarith [hkey]
    have habs2 : |(n : ℚ) / d - ((f + 1 : ℤ) : ℚ)| = 1 / 2 := by
      rw [hval, heq2, show (1 : ℚ) / 2 - 1 = -(1 / 2) by ring, abs_neg,
        abs_of_nonneg (by norm_num : (0 : ℚ) ≤ 1 / 2)]
    constructor
    · rw [habs2]
    · intro _
      omega

/-- Characterization for any nonzero denominator. -/
theorem roundHalfEvenRatio_char (n d : ℤ) (hd : d ≠ 0) :
    |(n : ℚ) / d - (roundHalfEvenRatio n d : ℚ)| ≤ 1 / 2 ∧
      (|(n : ℚ) / d - (roundHalfEvenRatio n d : ℚ)| = 1 / 2 →
        roundHalfEvenRatio n d % 2 = 0) := by
  rcases lt_or_gt_of_ne hd with hneg | hpos
  · have hflip : roundHalfEvenRatio n d = roundHalfEvenRatio (-n) (-d) := by
      simp only [roundHalfEvenRatio, if_pos hneg, if_neg (by omega : ¬ (-d < 0))]
    have hq : (n : ℚ) / d = ((-n : ℤ) : ℚ) / ((-d : ℤ) : ℚ) := by
      push_cast
      rw [neg_div_neg_eq]
    rw [hflip, hq]
    exact roundHalfEvenRatio_char_pos (-n) (-d) (by omega)
  · exact roundHalfEvenRatio_char_pos n d hpos

/-! ### Claims about the aggregator (C2, C9) -/

/-- C2 (amended): the aggregator sums `modules_completed` raw, with no
clamping; under the additional hypothesis that every entry's
`modules_completed` already lies in `[0, total_modules]`, the sum of
completed modules never exceeds the total and `overall_pct` is in [0, 100]. -/
theorem C2_overall_bounds_amended (ns : List Entry) (ms ts : ℕ → ℤ)
    (H : ∀ j : ℕ, j < ns.length →
      py_int (pyGet (ns.getD j []) "modules_completed" (.int 0)) = .ok (ms j) ∧
      py_int (pyGet (ns.getD j []) "total_modules" (.int 0)) = .ok (ts j) ∧
      0 ≤ ms j ∧ ms j ≤ ts j) :
    ∃ st : OverallStats, overall ns = .ok st ∧
      st.overall_modules_completed ≤ st.overall_modules_total ∧
      0 ≤ st.overall_progress_pct ∧ st.overall_progress_pct ≤ 100 := by
  obtain ⟨c, t, hc, ht, hc0, hct⟩ := sumInts_bounds ns ms ts H
  refine ⟨⟨c, t, if t ≠ 0 then roundHalfEvenRatio (c * 100) t else 0⟩, ?_, hct, ?_, ?_⟩
  · simp [overall, hc, ht]
  · by_cases h : t = 0
    · simp [h]
    · rw [if_pos h]
      exact roundHalfEvenRatio_nonneg (by omega) (by omega)
  · by_cases h : t = 0
    · simp [h]
    · rw [if_pos h]
      exact roundHalfEvenRatio_le (by omega) (by omega)

/-- C2 (counterexample): a normalized list with `modules_completed = 100` in
week 1 (cap 5) aggregates to `completed = 100 > total = 34` and
`overall_pct = 294 > 100` — the code clamps nothing. -/
theorem C2_counterexample :
    normalize_progress sample_loads
        (PyVal.list [PyVal.dict [("week", PyVal.int 1), ("modules_completed", PyVal.int 100)]])
      = .ok [mkEntry (.int 1) (.int 100) (.int 5) (.int 0),
             mkEntry (.int 2) (.int 0) (.int 5) (.int 0),
             mkEntry (.int 3) (.int 0) (.int 5) (.int 0),
             mkEntry (.int 4) (.int 0) (.int 5) (.int 0),
             mkEntry (.int 5) (.int 0) (.int 5) (.int 0),
             mkEntry (.int 6) (.int 0) (.int 5) (.int 0),
             mkEntry (.int 7) (.int 0) (.int 4) (.int 0)] ∧
    overall [mkEntry (.int 1) (.int 100) (.int 5) (.int 0),
             mkEntry (.int 2) (.int 0) (.int 5) (.int 0),
             mkEntry (.int 3) (.int 0) (.int 5) (.int 0),
             mkEntry (.int 4) (.int 0) (.int 5) (.int 0),
             mkEntry (.int 5) (.int 0) (.int 5) (.int 0),
             mkEntry (.int 6) (.int 0) (.int 5) (.int 0),
             mkEntry (.int 7) (.int 0) (.int 4) (.int 0)] = .ok ⟨100, 34, 294⟩ ∧
    ¬ ((100 : ℤ) ≤ 34) ∧ ¬ ((294 : ℤ) ≤ 100) ∧ ¬ ((100 : ℤ) = 5) :=
  ⟨rfl, rfl, by decide, by decide, by decide⟩

/-- C2 (witness): the bounds theorem applied to the default progress list. -/
theorem C2_witness :
    ∃ st : OverallStats, overall default_progress = .ok st ∧
      st.overall_modules_completed ≤ st.overall_modules_total ∧
      0 ≤ st.overall_progress_pct ∧ st.overall_progress_pct ≤ 100 :=
  C2_overall_bounds_amended default_progress (fun _ => 0) (fun j => week_totals.getD j 0)
    (by
      intro j hj
      have h7 : default_progress.length = 7 := rfl
      rw [h7] at hj
      interval_cases j <;> exact ⟨rfl, rfl, by decide, by decide⟩)

/-- C9 (amended): when `total ≠ 0`, `overall_pct` is within one half of the
exact value `completed / total * 100`, and at an exact half-tie it is the
even neighbour (Python's `round` is round-half-to-even, not half-up); when
`total = 0`, `overall_pct` is 0. -/
theorem C9_half_even_amended (ns : List Entry) (st : OverallStats)
    (h : overall ns = .ok st) :
    (st.overall_modules_total = 0 → st.overall_progress_pct = 0) ∧
    (st.overall_modules_total ≠ 0 →
      |((st.overall_modules_completed : ℚ) / (st.overall_modules_total : ℚ)) * 100
          - (st.overall_progress_pct : ℚ)| ≤ 1 / 2 ∧
      (|((st.overall_modules_completed : ℚ) / (st.overall_modules_total : ℚ)) * 100
          - (st.overall_progress_pct : ℚ)| = 1 / 2 →
        st.overall_progress_pct % 2 = 0)) := by
  unfold overall at h
  cases ht : sumInts ns "total_modules" with
  | error e => rw [ht] at h; simp at h
  | ok t =>
    rw [ht] at h
    cases hc : sumInts ns "modules_completed" with
    | error e => rw [hc] at h; simp at h
    | ok c =>
      rw [hc] at h
      injection h with h'
      subst h'
      constructor
      · intro h0
        have h0' : t = 0 := h0
        show (if t ≠ 0 then roundHalfEvenRatio (c * 100) t else 0) = 0
        simp [h0']
      · intro h0
        have h0' : t ≠ 0 := h0
        have hpct : (if t ≠ 0 then roundHalfEvenRatio (c * 100) t else 0)
            = roundHalfEvenRatio (c * 100) t := if_pos h0'
        have hq : ((c : ℚ) / (t : ℚ)) * 100 = ((c * 100 : ℤ) : ℚ) / (t : ℚ) := by
          push_cast; ring
        show |((c : ℚ) / (t : ℚ)) * 100
            - ((if t ≠ 0 then roundHalfEvenRatio (c * 100) t else 0 : ℤ) : ℚ)| ≤ 1 / 2 ∧ _
        rw [hpct, hq]
        exact roundHalfEvenRatio_char (c * 100) t h0'

/-- C9 (counterexample): a normalized list aggregating to `completed = 1`,
`total = 8` has exact percentage 12.5; the code returns 12 (half-to-even)
while half-up rounding gives 13. -/
theorem C9_counterexample :
    normalize_progress sample_loads
        (PyVal.list [PyVal.dict [("week", PyVal.int 1), ("modules_completed", PyVal.int 1),
                       ("total_modules", PyVal.int 8)],
                     PyVal.dict [("week", PyVal.int 2), ("total_modules", PyVal.int 0)],
                     PyVal.dict [("week", PyVal.int 3), ("total_modules", PyVal.int 0)],
                     PyVal.dict [("week", PyVal.int 4), ("total_modules", PyVal.int 0)],
                     PyVal.dict [("week", PyVal.int 5), ("total_modules", PyVal.int 0)],
                     PyVal.dict [("week", PyVal.int 6), ("total_modules", PyVal.int 0)],
                     PyVal.dict [("week", PyVal.int 7), ("total_modules", PyVal.int 0)]])
      = .ok [mkEntry (.int 1) (.int 1) (.int 8) (.int 0),
             mkEntry (.int 2) (.int 0) (.int 0) (.int 0),
             mkEntry (.int 3) (.int 0) (.int 0) (.int 0),
             mkEntry (.int 4) (.int 0) (.int 0) (.int 0),
             mkEntry (.int 5) (.int 0) (.int 0) (.int 0),
             mkEntry (.int 6) (.int 0) (.int 0) (.int 0),
             mkEntry (.int 7) (.int 0) (.int 0) (.int 0)] ∧
    overall [mkEntry (.int 1) (.int 1) (.int 8) (.int 0),
             mkEntry (.int 2) (.int 0) (.int 0) (.int 0),
             mkEntry (.int 3) (.int 0) (.int 0) (.int 0),
             mkEntry (.int 4) (.int 0) (.int 0) (.int 0),
             mkEntry (.int 5) (.int 0) (.int 0) (.int 0),
             mkEntry (.int 6) (.int 0) (.int 0) (.int 0),
             mkEntry (.int 7) (.int 0) (.int 0) (.int 0)] = .ok ⟨1, 8, 12⟩ ∧
    round (((1 : ℤ) : ℚ) / ((8 : ℤ) : ℚ) * 100) = 13 ∧
    ¬ ((12 : ℤ) = 13) :=
  ⟨rfl, rfl, by norm_num [round_eq], by decide⟩

/-- C9 (witness): the characterization applied to the default progress. -/
theorem C9_witness :
    (((34 : ℤ)) = 0 → (0 : ℤ) = 0) ∧
    (((34 : ℤ)) ≠ 0 →
      |(((0 : ℤ) : ℚ) / ((34 : ℤ) : ℚ)) * 100 - ((0 : ℤ) : ℚ)| ≤ 1 / 2 ∧
      (|(((0 : ℤ) : ℚ) / ((34 : ℤ) : ℚ)) * 100 - ((0 : ℤ) : ℚ)| = 1 / 2 →
        (0 : ℤ) % 2 = 0)) :=
  C9_half_even_amended default_progress ⟨0, 34, 0⟩ rfl

/-! ### Claims about the normalizer (C3, C4, C8) -/

/-- C3 (amended): the normalizer returns exactly 7 records and cannot raise
provided every dict element of the (decoded) list has an `int`-coercible
`week` value; without that proviso it can raise (see the counterexample). -/
theorem C3_normalize_total_amended (loads : String → Option PyVal) (v : PyVal)
    (H : ∀ p ∈ preprocess loads v, ∀ kvs, p = PyVal.dict kvs →
      ∃ n, py_int (pyGet kvs "week" (.int 0)) = .ok n) :
    ∃ ns, normalize_progress loads v = .ok ns ∧ ns.length = 7 := by
  obtain ⟨ns, hns, hlen⟩ := normalizeLoop_total H (List.range 7)
  exact ⟨ns, hns, by simpa using hlen⟩

/-- C3 (counterexample): a list containing a dict whose `week` is the
non-numeric string `"abc"` makes `_normalize_progress` raise — the function
is *not* exception-free on arbitrary malformed list entries. -/
theorem C3_counterexample :
    normalize_progress sample_loads
      (PyVal.list [PyVal.dict [("week", PyVal.str "abc")]]) = .error () := rfl

/-- C3 (witness): the amended theorem applied to a list mixing a week-keyed
dict (with a numeric-string week and an unknown extra key) and a non-dict. -/
theorem C3_witness :
    ∃ ns, normalize_progress sample_loads
        (PyVal.list [PyVal.dict [("week", PyVal.str "2"), ("foo", PyVal.none)], PyVal.int 5])
      = .ok ns ∧ ns.length = 7 :=
  C3_normalize_total_amended sample_loads
    (PyVal.list [PyVal.dict [("week", PyVal.str "2"), ("foo", PyVal.none)], PyVal.int 5])
    (by
      intro p hp kvs hkvs
      have hp' : p = PyVal.dict [("week", PyVal.str "2"), ("foo", PyVal.none)] ∨
          p = PyVal.int 5 := by
        simpa [preprocess] using hp
      rcases hp' with rfl | rfl
      · injection hkvs with h'
        subst h'
        exact ⟨2, rfl⟩
      · simp at hkvs)

/-- C4: an undecodable textual value, a decoded non-list, or a wrong-typed
stored value all normalize to exactly the canonical default set: weeks 1–7
in ascending order, totals {5,5,5,5,5,5,4}, zero completion, zero
assessment. -/
theorem C4_malformed_defaults (loads : String → Option PyVal) (v : PyVal)
    (h : (∃ s, v = PyVal.str s ∧ loads s = Option.none) ∨
         (∃ s p, v = PyVal.str s ∧ loads s = some p ∧ ∀ xs, p ≠ PyVal.list xs) ∨
         ((∀ s, v ≠ PyVal.str s) ∧ ∀ xs, v ≠ PyVal.list xs)) :
    normalize_progress loads v = .ok default_progress ∧
    default_progress =
      [mkEntry (.int 1) (.int 0) (.int 5) (.int 0),
       mkEntry (.int 2) (.int 0) (.int 5) (.int 0),
       mkEntry (.int 3) (.int 0) (.int 5) (.int 0),
       mkEntry (.int 4) (.int 0) (.int 5) (.int 0),
       mkEntry (.int 5) (.int 0) (.int 5) (.int 0),
       mkEntry (.int 6) (.int 0) (.int 5) (.int 0),
       mkEntry (.int 7) (.int 0) (.int 4) (.int 0)] := by
  refine ⟨?_, rfl⟩
  have hpre : preprocess loads v = default_progress_list := by
    rcases h with ⟨s, rfl, hls⟩ | ⟨s, p, rfl, hls, hp⟩ | ⟨hs, hl⟩
    · simp [preprocess, hls]
    · cases p with
      | list xs => exact absurd rfl (hp xs)
      | none => simp [preprocess, hls]
      | int n => simp [preprocess, hls]
      | str s' => simp [preprocess, hls]
      | dict kvs => simp [preprocess, hls]
    · cases v with
      | str s => exact absurd rfl (hs s)
      | list xs => exact absurd rfl (hl xs)
      | none => rfl
      | int n => rfl
      | dict kvs => rfl
  unfold normalize_progress
  rw [hpre]
  rfl

/-- C4 (witness): a wrong-typed stored value (an integer). -/
theorem C4_witness :
    normalize_progress sample_loads (PyVal.int 3) = .ok default_progress ∧
    default_progress =
      [mkEntry (.int 1) (.int 0) (.int 5) (.int 0),
       mkEntry (.int 2) (.int 0) (.int 5) (.int 0),
       mkEntry (.int 3) (.int 0) (.int 5) (.int 0),
       mkEntry (.int 4) (.int 0) (.int 5) (.int 0),
       mkEntry (.int 5) (.int 0) (.int 5) (.int 0),
       mkEntry (.int 6) (.int 0) (.int 5) (.int 0),
       mkEntry (.int 7) (.int 0) (.int 4) (.int 0)] :=
  C4_malformed_defaults sample_loads (PyVal.int 3)
    (Or.inr (Or.inr ⟨fun _ h => PyVal.noConfusion h, fun _ h => PyVal.noConfusion h⟩))

/-- C8: the normalizer is idempotent — re-normalizing any normalizer output
(re-encoded as a stored list of dicts) returns it unchanged. -/
theorem C8_normalize_idempotent (loads : String → Option PyVal) (v : PyVal)
    (ns : List Entry) (h : normalize_progress loads v = .ok ns) :
    normalize_progress loads (PyVal.list (ns.map PyVal.dict)) = .ok ns := by
  obtain ⟨hlen, hshape⟩ := normalize_progress_shape h
  have HW := shape_week_coe hlen hshape
  obtain ⟨e0, e1, e2, e3, e4, e5, e6, rfl⟩ := length_seven_cases ns hlen
  have hone : ∀ i : ℕ, i < 7 →
      normalizeOne ([e0, e1, e2, e3, e4, e5, e6].map PyVal.dict) i =
        .ok ([e0, e1, e2, e3, e4, e5, e6].getD i []) := by
    intro i hi
    have hf := findWeek_hit [e0, e1, e2, e3, e4, e5, e6] 1 i HW (by simpa using hi)
    rw [show (1 : ℤ) + (i : ℤ) = (i : ℤ) + 1 from by ring] at hf
    obtain ⟨w, m, t, a, he, hw⟩ := hshape i hi
    simp only [normalizeOne, hf, he, overlay_mkEntry]
  have h0 := hone 0 (by omega)
  have h1 := hone 1 (by omega)
  have h2 := hone 2 (by omega)
  have h3 := hone 3 (by omega)
  have h4 := hone 4 (by omega)
  have h5 := hone 5 (by omega)
  have h6 := hone 6 (by omega)
  unfold normalize_progress
  rw [show preprocess loads (PyVal.list ([e0, e1, e2, e3, e4, e5, e6].map PyVal.dict))
      = [e0, e1, e2, e3, e4, e5, e6].map PyVal.dict from rfl]
  rw [show List.range 7 = [0, 1, 2, 3, 4, 5, 6] from rfl]
  simp only [normalizeLoop, h0, h1, h2, h3, h4, h5, h6]
  rfl

/-- C8 (witness): re-normalizing the default progress returns it unchanged. -/
theorem C8_witness :
    normalize_progress sample_loads (PyVal.list (default_progress.map PyVal.dict)) =
      .ok default_progress :=
  C8_normalize_idempotent sample_loads (PyVal.int 0) default_progress rfl

/-! ### Claims about the webhook route (C6) -/

/-- C6: a webhook submission whose trimmed, lowercased email matches no
learner fails with the NotFound error and leaves the database — learners and
audit log alike — completely unchanged. -/
theorem C6_webhook_unknown_email (loads : String → Option PyVal)
    (passing_score : ℤ) (db : DB) (data : AssessmentWebhookIn)
    (h : ∀ l ∈ db.learners, l.email ≠ some (py_lower (py_strip data.email))) :
    assessment_webhook loads passing_score db data =
      (.error (.notFound "Learner not found for email"), db) := by
  have hfind : db.learners.find?
      (fun l => l.email == some (py_lower (py_strip data.email))) = Option.none :=
    List.find?_eq_none.mpr (fun x hx => by simpa using h x hx)
  simp [assessment_webhook, hfind]

/-- C6 (witness): an email matching no learner of the sample database. -/
theorem C6_witness :
    assessment_webhook sample_loads 7 sample_db ⟨"x@y.com", 1, "agentic", 10⟩ =
      (.error (.notFound "Learner not found for email"), sample_db) :=
  C6_webhook_unknown_email sample_loads 7 sample_db ⟨"x@y.com", 1, "agentic", 10⟩
    (by decide)

/-! ### The webhook pass-lock rule (C1) -/

/-- C1: for a webhook submission whose normalized email matches a learner
(found first by the query), with a normalizable stored progress and an
`int`-coercible current percentage `cur` for the target week `j + 1`, the
route succeeds: it appends exactly one audit row, rewrites the matched
learner's week `j + 1` to `100` when `score ≥ passing_score` or `cur ≥ 100`
and to `0` otherwise, leaves every other week unchanged — so a week already
at 100 can never be lowered by a failing score. -/
theorem C1_webhook_pass_lock
    (loads : String → Option PyVal) (passing_score : ℤ) (db : DB)
    (data : AssessmentWebhookIn) (learner : LearnerRow)
    (hfind : db.learners.find?
      (fun l => l.email == some (py_lower (py_strip data.email))) = some learner)
    (j : ℕ) (hj : j < 7) (hweek : data.week = (j : ℤ) + 1)
    (ns : List Entry) (hns : normalize_progress loads learner.progress = .ok ns)
    (cur : ℤ)
    (hcur : py_int (pyGet (ns.getD j []) "assessment_pct" (.int 0)) = .ok cur) :
    ∃ (resp : WebhookResp) (ns2 : List Entry),
      assessment_webhook loads passing_score db data =
        (.ok resp,
          { learners := db.learners.map (fun l =>
              if l.id == learner.id
              then { l with progress := PyVal.list (ns2.map PyVal.dict) } else l),
            assessments := db.assessments ++
              [{ id := next_assessment_id db, learner_id := learner.id,
                 week := data.week, track := data.track, score := data.score }] }) ∧
      pyGet (ns2.getD j []) "assessment_pct" (.int 0) =
        .int (if passing_score ≤ data.score ∨ 100 ≤ cur then 100 else 0) ∧
      (∀ i : ℕ, i ≠ j → ns2.getD i [] = ns.getD i []) ∧
      (100 ≤ cur → pyGet (ns2.getD j []) "assessment_pct" (.int 0) = .int 100) := by
  obtain ⟨hlen, hshape⟩ := normalize_progress_shape hns
  have HW := shape_week_coe hlen hshape
  have hj' : j < ns.length := by omega
  have hupd := updateWeekPct_hit ns 1 j HW hj' cur hcur (decide (passing_score ≤ data.score))
  have hweek' : (1 : ℤ) + (j : ℤ) = data.week := by omega
  rw [hweek'] at hupd
  have hval : PyVal.int (if (decide (passing_score ≤ data.score) || decide (100 ≤ cur))
        then (100 : ℤ) else 0)
      = PyVal.int (if passing_score ≤ data.score ∨ 100 ≤ cur then (100 : ℤ) else 0) := by
    by_cases hp : passing_score ≤ data.score <;> by_cases hc : (100 : ℤ) ≤ cur <;>
      simp [hp, hc]
  obtain ⟨w, m, t, a, he, hw⟩ := hshape j hj
  refine ⟨{ status := "saved", assessment_id := next_assessment_id db,
            passed := decide (passing_score ≤ data.score) },
    ns.set j (py_set (ns.getD j []) "assessment_pct"
      (.int (if passing_score ≤ data.score ∨ 100 ≤ cur then 100 else 0))),
    ?_, ?_, ?_, ?_⟩
  · simp only [assessment_webhook, hfind, hns, hupd, hval]
  · rw [getD_set_self ns j _ [] hj', he, py_set_mkEntry_pct, pyGet_mkEntry_pct]
  · intro i hi
    exact getD_set_ne ns j i _ [] (fun hc => hi hc.symm)
  · intro hc
    rw [getD_set_self ns j _ [] hj', he, py_set_mkEntry_pct, pyGet_mkEntry_pct]
    simp [hc]

/-- C1 (witness): a passing submission (score 9 ≥ 7) for week 3 of the
sample learner, matched through email trimming and lower-casing. -/
theorem C1_witness :
    ∃ (resp : WebhookResp) (ns2 : List Entry),
      assessment_webhook sample_loads 7 sample_db ⟨" A@B.com ", 3, "agentic", 9⟩ =
        (.ok resp,
          { learners := sample_db.learners.map (fun l =>
              if l.id == sample_learner.id
              then { l with progress := PyVal.list (ns2.map PyVal.dict) } else l),
            assessments := sample_db.assessments ++
              [{ id := next_assessment_id sample_db, learner_id := sample_learner.id,
                 week := (3 : ℤ), track := "agentic", score := 9 }] }) ∧
      pyGet (ns2.getD 2 []) "assessment_pct" (.int 0) =
        .int (if (7 : ℤ) ≤ 9 ∨ (100 : ℤ) ≤ 0 then 100 else 0) ∧
      (∀ i : ℕ, i ≠ 2 → ns2.getD i [] = default_progress.getD i []) ∧
      ((100 : ℤ) ≤ 0 → pyGet (ns2.getD 2 []) "assessment_pct" (.int 0) = .int 100) :=
  C1_webhook_pass_lock sample_loads 7 sample_db ⟨" A@B.com ", 3, "agentic", 9⟩
    sample_learner rfl 2 (by omega) (by norm_num) default_progress rfl 0 rfl

/-! ### The bulk progress update (C5, C7) -/

/-- C5: a bulk progress update on an existing learner stores, for every
submitted item, the item with its `assessment_pct` replaced by the server's
pre-existing percentage for that week (0 when the server has no such week),
regardless of the value the caller supplied; `week`, `modules_completed` and
`total_modules` are stored as submitted. -/
theorem C5_update_progress_preserves_assessment
    (loads : String → Option PyVal) (db : DB) (learner_id : ℤ)
    (items : List WeekProgress) (row : LearnerRow)
    (hfind : db.learners.find? (fun l => l.id == learner_id) = some row)
    (ns : List Entry) (hns : normalize_progress loads row.progress = .ok ns)
    (g : ℕ → ℤ)
    (hg : ∀ j : ℕ, j < 7 →
      py_int (pyGet (ns.getD j []) "assessment_pct" (.int 0)) = .ok (g j)) :
    ∃ resp,
      update_progress loads db learner_id items =
        (resp,
          { db with learners := db.learners.map (fun l =>
              if l.id == learner_id
              then { row with progress := (PyVal.list
                ((items.map (fun it =>
                  { it with assessment_pct := server_pct_spec ns it.week })).map
                  (fun it => PyVal.dict (item_to_dict it)))) }
              else l) }) := by
  obtain ⟨hlen, hshape⟩ := normalize_progress_shape hns
  have Hc : ∀ j : ℕ, j < ns.length → ∃ w m t a, ns.getD j [] = mkEntry w m t a ∧
      py_int w = .ok ((1 : ℤ) + j) ∧ py_int a = .ok (g j) := by
    intro j hjl
    have hj7 : j < 7 := by omega
    obtain ⟨w, m, t, a, he, hw⟩ := hshape j hj7
    refine ⟨w, m, t, a, he, ?_, ?_⟩
    · rw [hw]; congr 1; ring
    · have hgj := hg j hj7
      rw [he, pyGet_mkEntry_pct] at hgj
      exact hgj
  have habw := assessment_by_week_ok ns 1 g Hc
  rw [hlen] at habw
  have hpairs : (List.range 7).map (fun (j : ℕ) => ((1 : ℤ) + (j : ℤ), g j))
      = [(1, g 0), (2, g 1), (3, g 2), (4, g 3), (5, g 4), (6, g 5), (7, g 6)] := by
    rw [show List.range 7 = [0, 1, 2, 3, 4, 5, 6] from rfl]
    norm_num
  rw [hpairs] at habw
  have hsan : sanitize_items
      [(1, g 0), (2, g 1), (3, g 2), (4, g 3), (5, g 4), (6, g 5), (7, g 6)] items
      = items.map (fun it => { it with assessment_pct := server_pct_spec ns it.week }) := by
    unfold sanitize_items
    apply List.map_congr_left
    intro it _
    rw [dict_get_pairs g it.week, server_pct_spec_eq hg it.week]
  simp only [update_progress, hfind, hns, habw, hsan]
  cases hto : to_out loads { row with progress := (PyVal.list
      ((items.map (fun it => { it with assessment_pct := server_pct_spec ns it.week })).map
        (fun it => PyVal.dict (item_to_dict it)))) } with
  | error e => exact ⟨.error .internal, rfl⟩
  | ok out => exact ⟨.ok out, rfl⟩

/-- C5 (witness): a bulk update on the sample learner forcing the caller's
`assessment_pct = 77` back to the server's value. -/
theorem C5_witness :
    ∃ resp,
      update_progress sample_loads sample_db 1 [⟨2, 3, 5, 77⟩] =
        (resp,
          { sample_db with learners := sample_db.learners.map (fun l =>
              if l.id == (1 : ℤ)
              then { sample_learner with progress := (PyVal.list
                ((([⟨2, 3, 5, 77⟩] : List WeekProgress).map (fun it =>
                  { it with assessment_pct := server_pct_spec default_progress it.week })).map
                  (fun it => PyVal.dict (item_to_dict it)))) }
              else l) }) :=
  C5_update_progress_preserves_assessment sample_loads sample_db 1 [⟨2, 3, 5, 77⟩]
    sample_learner rfl default_progress rfl (fun _ => 0)
    (by intro j hj; interval_cases j <;> rfl)

/-- C7 (counterexample): submitting `modules_completed = 10,
total_modules = 5` for week 1 stores and returns `modules_completed = 10` —
nothing clamps it to 5. -/
theorem C7_counterexample :
    (update_progress sample_loads sample_db 1 [⟨1, 10, 5, 0⟩]).2.learners =
      [{ sample_learner with progress :=
          (PyVal.list [PyVal.dict (mkEntry (.int 1) (.int 10) (.int 5) (.int 0))]) }] ∧
    (update_progress sample_loads sample_db 1 [⟨1, 10, 5, 0⟩]).1 =
      .ok ⟨1, "Ada", "QA", "AI engineer", 1, some 20250901,
        [⟨1, 10, 5, 0⟩, ⟨2, 0, 5, 0⟩, ⟨3, 0, 5, 0⟩, ⟨4, 0, 5, 0⟩,
         ⟨5, 0, 5, 0⟩, ⟨6, 0, 5, 0⟩, ⟨7, 0, 4, 0⟩], 10, 34, 29⟩ ∧
    ¬ ((10 : ℤ) = 5) :=
  ⟨rfl, rfl, by decide⟩

/-- C7 (amended): the scenario stores and returns `modules_completed = 10`
unchanged; no clamping to `total_modules` happens anywhere on this path. -/
theorem C7_no_clamp_amended :
    update_progress sample_loads sample_db 1 [⟨1, 10, 5, 0⟩] =
      (.ok ⟨1, "Ada", "QA", "AI engineer", 1, some 20250901,
        [⟨1, 10, 5, 0⟩, ⟨2, 0, 5, 0⟩, ⟨3, 0, 5, 0⟩, ⟨4, 0, 5, 0⟩,
         ⟨5, 0, 5, 0⟩, ⟨6, 0, 5, 0⟩, ⟨7, 0, 4, 0⟩], 10, 34, 29⟩,
       { sample_db with learners :=
          [{ sample_learner with progress :=
              (PyVal.list [PyVal.dict (mkEntry (.int 1) (.int 10) (.int 5) (.int 0))]) }] }) :=
  rfl

/-! ### The PATCH route (C10) -/

/-- C10: updating an existing learner overwrites `start_date` with the
payload value unconditionally — a payload that omits `start_date` (pydantic
default `None`) therefore stores `None` — and leaves every other field of
the learner, and every other learner, unchanged. -/
theorem C10_update_learner_start_date
    (loads : String → Option PyVal) (db : DB) (learner_id : ℤ)
    (payload : Option ℤ) (row : LearnerRow)
    (hfind : db.learners.find? (fun l => l.id == learner_id) = some row) :
    ∃ resp,
      update_learner loads db learner_id payload =
        (resp, { db with learners := db.learners.map (fun l =>
          if l.id == learner_id then { row with start_date := payload } else l) }) ∧
      ({ row with start_date := payload } : LearnerRow).start_date = payload ∧
      ({ row with start_date := payload } : LearnerRow).name = row.name ∧
      ({ row with start_date := payload } : LearnerRow).source_role = row.source_role ∧
      ({ row with start_date := payload } : LearnerRow).target_role = row.target_role ∧
      ({ row with start_date := payload } : LearnerRow).start_week = row.start_week ∧
      ({ row with start_date := payload } : LearnerRow).email = row.email ∧
      ({ row with start_date := payload } : LearnerRow).progress = row.progress := by
  simp only [update_learner, hfind]
  cases hto : to_out loads { row with start_date := payload } with
  | error e =>
    refine ⟨.error .internal, ?_, ?_, ?_, ?_, ?_, ?_, ?_, ?_⟩ <;> first | rfl | trivial
  | ok out =>
    refine ⟨.ok out, ?_, ?_, ?_, ?_, ?_, ?_, ?_, ?_⟩ <;> first | rfl | trivial

/-- C10 (witness): a payload omitting `start_date` (`None`) nulls the sample
learner's stored date while preserving the other fields. -/
theorem C10_witness :
    ∃ resp,
      update_learner sample_loads sample_db 1 Option.none =
        (resp, { sample_db with learners := sample_db.learners.map (fun l =>
          if l.id == (1 : ℤ) then { sample_learner with start_date := Option.none } else l) }) ∧
      ({ sample_learner with start_date := Option.none } : LearnerRow).start_date
        = Option.none ∧
      ({ sample_learner with start_date := Option.none } : LearnerRow).name
        = sample_learner.name ∧
      ({ sample_learner with start_date := Option.none } : LearnerRow).source_role
        = sample_learner.source_role ∧
      ({ sample_learner with start_date := Option.none } : LearnerRow).target_role
        = sample_learner.target_role ∧
      ({ sample_learner with start_date := Option.none } : LearnerRow).start_week
        = sample_learner.start_week ∧
      ({ sample_learner with start_date := Option.none } : LearnerRow).email
        = sample_learner.email ∧
      ({ sample_learner with start_date := Option.none } : LearnerRow).progress
        = sample_learner.progress :=
  C10_update_learner_start_date sample_loads sample_db 1 Option.none sample_learner rfl

end Bootcamp
